import Mathlib

/-!
Shallow embedding of `src/Lab_2_4_LR2.py`: a linear-regression teaching
utility offering least-squares fitting (normal equation), batch gradient
descent, prediction, regression metrics (R2, RMSE, MAE) and one-hot
encoding of categorical columns.

Modelling conventions:
* NumPy float64 arithmetic is idealized as exact arithmetic: `ℚ` for the
  regressor and the encoder, `ℝ` for the metrics (whose RMSE needs a real
  square root).
* NumPy 1-D arrays are `List ℚ`, 2-D arrays are lists of rows.
* Python exceptions are modelled with `Except PyError`; methods that
  mutate `self` return the object state after the call next to the
  outcome, so a raise mid-method exposes exactly the mutations made
  before the raise.
* NumPy operations that can produce non-finite floats (division by zero)
  are modelled with `Option ℝ`, `none` standing for `inf`/`nan`.
* `np.random.rand` draws are supplied by an oracle `rand : ℕ → ℚ`.
-/

namespace LR

abbrev Vec := List ℚ
abbrev Mat := List (List ℚ)

/-- Python exception kinds raised by the embedded code. -/
inductive PyError where
  | valueError (msg : String)
  | linAlgError (msg : String)
  | indexError (msg : String)
  | typeError (msg : String)
  | zeroDivisionError (msg : String)
  deriving DecidableEq, Repr

/-- `X.shape[1]` of a NumPy 2-D array rendered as a list of rows
(meaningful on rectangular matrices; `0` for an empty list). -/
def ncols (M : Mat) : ℕ := (M.headD []).length

/-- `M.T` (NumPy transpose) of a rectangular list-of-rows matrix. -/
def transposeM (M : Mat) : Mat :=
  (List.range (ncols M)).map (fun j => M.map (fun row => row.getD j 0))

/-- Dot product of two equal-length 1-D arrays. -/
def dotList (a b : Vec) : ℚ := (List.zipWith (· * ·) a b).sum

/-- Matrix-matrix product, total on rows (shape checks live in `matMulE`). -/
def matMulP (A B : Mat) : Mat :=
  A.map (fun r => (transposeM B).map (fun c => dotList r c))

/-- Matrix-vector product, total on rows (shape checks live in `matVecE`). -/
def matVecP (A : Mat) (v : Vec) : Vec := A.map (fun r => dotList r v)

/-- `A.dot(B)` for 2-D `A`, `B`: NumPy raises `ValueError` on a shape
mismatch. -/
def matMulE (A B : Mat) : Except PyError Mat :=
  if ∀ r ∈ A, r.length = B.length then .ok (matMulP A B)
  else .error (.valueError "shapes not aligned")

/-- `A.dot(v)` for 2-D `A` and 1-D `v`. -/
def matVecE (A : Mat) (v : Vec) : Except PyError Vec :=
  if ∀ r ∈ A, r.length = v.length then .ok (matVecP A v)
  else .error (.valueError "shapes not aligned")

/-- Elementwise subtraction of two 1-D arrays with NumPy broadcasting:
equal lengths subtract pointwise, a length-1 operand broadcasts, anything
else raises `ValueError`. -/
def npSub1d (a b : Vec) : Except PyError Vec :=
  if a.length = b.length then .ok (List.zipWith (· - ·) a b)
  else if a.length = 1 then .ok (b.map (fun x => a.getD 0 0 - x))
  else if b.length = 1 then .ok (a.map (fun x => x - b.getD 0 0))
  else .error (.valueError "operands could not be broadcast together")

/-- First-row Laplace expansion of a determinant; the fuel argument is the
row count, so the recursion is structural. -/
def listDetAux : ℕ → Mat → ℚ
  | _, [] => 1
  | 0, _ :: _ => 1
  | fuel + 1, r :: rs =>
      ((List.range r.length).map
        (fun j => (-1 : ℚ) ^ j * r.getD j 0 *
          listDetAux fuel (rs.map (fun row => row.eraseIdx j)))).sum

/-- Determinant of a square list matrix. -/
def listDet (M : Mat) : ℚ := listDetAux M.length M

/-- The minor of `M` at row `i`, column `j`. -/
def minorAt (M : Mat) (i j : ℕ) : Mat :=
  (M.eraseIdx i).map (fun row => row.eraseIdx j)

/-- Cofactor matrix of a square list matrix. -/
def cofactorMat (M : Mat) : Mat :=
  (List.range M.length).map (fun i =>
    (List.range M.length).map (fun j =>
      (-1 : ℚ) ^ (i + j) * listDet (minorAt M i j)))

/-- The exact inverse `adj(M) / det(M)` (total; the singularity check
lives in `npLinalgInv`). -/
def pureInv (M : Mat) : Mat :=
  (transposeM (cofactorMat M)).map (fun row => row.map (fun v => v / listDet M))

/-- `np.linalg.inv`, modelled by its contract: the exact inverse of a
square nonsingular matrix, `LinAlgError` otherwise. -/
def npLinalgInv (M : Mat) : Except PyError Mat :=
  if ∀ r ∈ M, r.length = M.length then
    if listDet M = 0 then .error (.linAlgError "Singular matrix")
    else .ok (pureInv M)
  else .error (.linAlgError "Last 2 dimensions of the array must be square")

/-- A NumPy array argument that may be 1-D or 2-D (the code dispatches on
`np.ndim`). -/
inductive NDArray where
  | one (v : Vec)
  | two (M : Mat)

/-- The `if np.ndim(X) == 1: X = X.reshape(-1, 1)` normalization used by
both `fit` and `predict`; 2-D arrays pass through unchanged. -/
def to2d : NDArray → Mat
  | .one v => v.map (fun x => [x])
  | .two M => M

/-- `np.insert(X, 0, 1, axis=1)`: the bias-augmented matrix (a leading
column of ones). -/
def withBias (X : Mat) : Mat := X.map (fun row => 1 :: row)

/-- The model object: `self.coefficients` and `self.intercept`, both
`None` after `__init__`. -/
structure LinearRegressor where
  coefficients : Option Vec
  intercept : Option ℚ
  deriving DecidableEq, Repr

/-- `LinearRegressor.__init__`: both fields start as `None`. -/
def LinearRegressor.new : LinearRegressor := ⟨none, none⟩

/-- `LinearRegressor.predict`: raises `ValueError` when either parameter
is `None`, reshapes 1-D input to `n × 1`, and returns
`X.dot(self.coefficients) + self.intercept`. -/
def LinearRegressor.predict (self : LinearRegressor) (X : NDArray) :
    Except PyError Vec :=
  match self.coefficients, self.intercept with
  | some c, some b =>
      match matVecE (to2d X) c with
      | .error e => .error e
      | .ok preds => .ok (preds.map (fun v => v + b))
  | _, _ => .error (.valueError "Model is not yet fitted")

/-- `theta = np.linalg.inv(X.T.dot(X)).dot(X.T).dot(y)` from
`fit_multiple`, with every NumPy call's failure propagated. -/
def thetaOf (X : Mat) (y : Vec) : Except PyError Vec :=
  (matMulE (transposeM X) X).bind (fun g =>
    (npLinalgInv g).bind (fun gi =>
      (matMulE gi (transposeM X)).bind (fun a => matVecE a y)))

/-- `LinearRegressor.fit_multiple`: computes `theta` (any raise leaves
`self` untouched), then sets `intercept := theta[0]` and
`coefficients := theta[1:]`. -/
def LinearRegressor.fit_multiple (self : LinearRegressor) (X : Mat) (y : Vec) :
    Except PyError Unit × LinearRegressor :=
  match thetaOf X y with
  | .error e => (.error e, self)
  | .ok theta =>
      match theta[0]? with
      | none =>
          (.error (.indexError "index 0 is out of bounds for axis 0 with size 0"),
            self)
      | some t0 =>
          (.ok (), { coefficients := some (theta.drop 1), intercept := some t0 })

/-- One epoch of the `fit_gradient_descent` loop, in the statement order of
the source: `predictions = self.predict(X[:, 1:])`, `error = predictions - y`,
`gradient = learning_rate/m * X.T.dot(error)` (the division by `m` is
evaluated first, so `m = 0` raises `ZeroDivisionError` here), then
`self.intercept -= gradient[0]` and `self.coefficients -= gradient[1:]`.
The state is threaded so a raise mid-epoch keeps the mutations made so
far.  The diagnostic `print` has no effect on state and is omitted. -/
def gdStep (X : Mat) (y : Vec) (lr : ℚ) (m : ℕ) (s : LinearRegressor) :
    Except PyError Unit × LinearRegressor :=
  match s.predict (.two (X.map (fun row => row.drop 1))) with
  | .error e => (.error e, s)
  | .ok preds =>
      match npSub1d preds y with
      | .error e => (.error e, s)
      | .ok err =>
          if m = 0 then (.error (.zeroDivisionError "float division by zero"), s)
          else
            match matVecE (transposeM X) err with
            | .error e => (.error e, s)
            | .ok xte =>
                let gradient := xte.map (fun v => lr / (m : ℚ) * v)
                match gradient[0]? with
                | none =>
                    (.error (.indexError
                      "index 0 is out of bounds for axis 0 with size 0"), s)
                | some g0 =>
                    match s.intercept with
                    | none => (.error (.typeError "unsupported operand"), s)
                    | some b =>
                        let s1 : LinearRegressor :=
                          { s with intercept := some (b - g0) }
                        match s1.coefficients with
                        | none => (.error (.typeError "unsupported operand"), s1)
                        | some c =>
                            match npSub1d c (gradient.drop 1) with
                            | .error e => (.error e, s1)
                            | .ok c2 => (.ok (), { s1 with coefficients := some c2 })

/-- `for epoch in range(iterations)` around `gdStep`; a raise aborts the
remaining epochs. -/
def gdLoop (X : Mat) (y : Vec) (lr : ℚ) (m : ℕ) :
    ℕ → LinearRegressor → Except PyError Unit × LinearRegressor
  | 0, s => (.ok (), s)
  | k + 1, s =>
      match gdStep X y lr m s with
      | (.ok _, s1) => gdLoop X y lr m k s1
      | (.error e, s1) => (.error e, s1)

/-- `LinearRegressor.fit_gradient_descent`: re-initializes both parameters
to small multiples of fresh `np.random.rand` draws **before** the loop
(`self.coefficients = np.random.rand(X.shape[1] - 1) * 0.01`,
`self.intercept = np.random.rand() * 0.01`), then runs the epochs. -/
def LinearRegressor.fit_gradient_descent (self : LinearRegressor) (X : Mat)
    (y : Vec) (lr : ℚ) (iterations : ℕ) (rand : ℕ → ℚ) :
    Except PyError Unit × LinearRegressor :=
  let m := y.length
  let p := ncols X - 1
  let s1 : LinearRegressor :=
    { self with coefficients := some ((List.range p).map (fun i => rand i * (1 / 100))) }
  let s2 : LinearRegressor := { s1 with intercept := some (rand p * (1 / 100)) }
  gdLoop X y lr m iterations s2

/-- `LinearRegressor.fit`: rejects any method string other than the two
literals before touching the data, reshapes 1-D `X`, prepends the bias
column, and dispatches. -/
def LinearRegressor.fit (self : LinearRegressor) (X : NDArray) (y : Vec)
    (method : String) (learning_rate : ℚ) (iterations : ℕ) (rand : ℕ → ℚ) :
    Except PyError Unit × LinearRegressor :=
  if method = "least_squares" ∨ method = "gradient_descent" then
    let Xb := withBias (to2d X)
    if method = "least_squares" then self.fit_multiple Xb y
    else self.fit_gradient_descent Xb y learning_rate iterations rand
  else
    (.error (.valueError
      ("Method " ++ method ++ " not available for training linear regression.")),
      self)

/-- Spec formula (spec 4.1a): `θ = (XᵇᵀXᵇ)⁻¹ Xᵇᵀ y`, `Xᵇ` the
bias-augmented matrix, written with the total matrix operations. -/
def specTheta (X : Mat) (y : Vec) : Vec :=
  matVecP
    (matMulP (pureInv (matMulP (transposeM (withBias X)) (withBias X)))
      (transposeM (withBias X))) y

/-- Spec step (spec 4.1b): `predictions = X · coefficients + intercept`
over the non-bias columns, `error = predictions − y`,
`gradient = (lr / n) · Xᵇᵀ · error`, `intercept -= gradient[0]`,
`coefficients -= gradient[1:]`.  State is `(intercept, coefficients)`. -/
def specGDStep (X : Mat) (y : Vec) (lr : ℚ) : ℚ × Vec → ℚ × Vec :=
  fun bc =>
    let preds := X.map (fun row => dotList row bc.2 + bc.1)
    let err := List.zipWith (· - ·) preds y
    let g := (matVecP (transposeM (withBias X)) err).map
      (fun v => lr / (y.length : ℚ) * v)
    (bc.1 - g.getD 0 0, List.zipWith (· - ·) bc.2 (g.drop 1))

/-- NumPy float division idealized over `ℝ`: `none` models the non-finite
result (`inf` or `nan`) that a zero denominator produces. -/
noncomputable def npDiv (a b : ℝ) : Option ℝ :=
  if b = 0 then none else some (a / b)

/-- `evaluate_regression(y_true, y_pred)`: returns the Python dict
`{"R2": 1 - ss_res/ss_tot, "RMSE": sqrt(sum((yt-yp)**2)/n), "MAE":
sum(|yt-yp|)/n}` as an association list.  Elementwise NumPy operations on
the two equal-length 1-D inputs are `zipWith`; `np.mean` is `sum / n`.
A non-finite value (division by zero, `1 - nan`, `sqrt(nan)`) is `none`. -/
noncomputable def evaluate_regression (y_true y_pred : List ℝ) :
    List (String × Option ℝ) :=
  let ss_res := (List.zipWith (fun a b => (a - b) ^ 2) y_true y_pred).sum
  let ss_tot := (y_true.map
    (fun a => (a - y_true.sum / (y_true.length : ℝ)) ^ 2)).sum
  let r_squared := (npDiv ss_res ss_tot).map (fun q => 1 - q)
  let rmse := (npDiv ((List.zipWith (fun a b => (a - b) ^ 2) y_true y_pred).sum)
      (y_true.length : ℝ)).map Real.sqrt
  let mae := npDiv ((List.zipWith (fun a b => |a - b|) y_true y_pred).sum)
      (y_true.length : ℝ)
  [("R2", r_squared), ("RMSE", rmse), ("MAE", mae)]

/-- Spec formula (spec 4.2): `mean(y_true)`. -/
noncomputable def specMean (y : List ℝ) : ℝ := y.sum / (y.length : ℝ)

/-- Spec formula (spec 4.2): `R² = 1 − Σ(y_true−y_pred)² / Σ(y_true−mean)²`,
non-finite (`none`) when the denominator is zero. -/
noncomputable def specR2 (yt yp : List ℝ) : Option ℝ :=
  if (∑ i ∈ Finset.range yt.length, (yt.getD i 0 - specMean yt) ^ 2) = 0 then
    none
  else
    some (1 - (∑ i ∈ Finset.range yt.length, (yt.getD i 0 - yp.getD i 0) ^ 2) /
      (∑ i ∈ Finset.range yt.length, (yt.getD i 0 - specMean yt) ^ 2))

/-- Spec formula (spec 4.2): `RMSE = sqrt(Σ(y_true−y_pred)² / n)`. -/
noncomputable def specRMSE (yt yp : List ℝ) : ℝ :=
  Real.sqrt ((∑ i ∈ Finset.range yt.length, (yt.getD i 0 - yp.getD i 0) ^ 2) /
    (yt.length : ℝ))

/-- Spec formula (spec 4.2): `MAE = Σ|y_true−y_pred| / n`. -/
noncomputable def specMAE (yt yp : List ℝ) : ℝ :=
  (∑ i ∈ Finset.range yt.length, |yt.getD i 0 - yp.getD i 0|) / (yt.length : ℝ)

section OneHot

variable {α : Type*} [LinearOrder α] [DecidableEq α] [Inhabited α]

/-- `X[:, index]` of a generic 2-D array (entries may be strings or
numbers; `default` is only read out of bounds). -/
def colOf (X : List (List α)) (index : ℕ) : List α :=
  X.map (fun row => row.getD index default)

/-- `np.unique`: the distinct values in ascending sorted order. -/
def uniqueSorted (l : List α) : List α :=
  (List.insertionSort (· ≤ ·) l).dedup

/-- Row `r` of the `one_hot` block: the source fills column `i` with
`(categorical_column == unique_values[i]).astype(int)`, so row `r` holds,
for each unique value in order, `1.0` if the row's value equals it and
`0.0` otherwise. -/
def indicatorRow (u : List α) (v : α) : List ℚ :=
  u.map (fun c => if v = c then 1 else 0)

/-- The loop body of `one_hot_encode` for one index: reads column `index`
of the **original** `X`, builds the indicator block (optionally dropping
its first column), and splices it into `X_transformed` via
`np.hstack((X_transformed[:, :index], one_hot, X_transformed[:, index+1:]))`.
Output entries are `Sum.inl` originals or `Sum.inr` indicators (NumPy
would coerce them to a common dtype; the sum type keeps both exact). -/
def encodeOne (X : List (List α)) (Xt : List (List (α ⊕ ℚ))) (index : ℕ)
    (drop_first : Bool) : List (List (α ⊕ ℚ)) :=
  let u := uniqueSorted (colOf X index)
  List.zipWith
    (fun trow v =>
      trow.take index ++
        ((if drop_first then (indicatorRow u v).drop 1 else indicatorRow u v).map
          Sum.inr) ++
        trow.drop (index + 1))
    Xt (colOf X index)

/-- `one_hot_encode(X, categorical_indices, drop_first)`: starts from
`X_transformed = X.copy()` and processes the indices in descending order
(`sorted(categorical_indices, reverse=True)`). -/
def one_hot_encode (X : List (List α)) (categorical_indices : List ℕ)
    (drop_first : Bool) : List (List (α ⊕ ℚ)) :=
  (List.insertionSort (fun a b => b ≤ a) categorical_indices).foldl
    (fun Xt index => encodeOne X Xt index drop_first)
    (X.map (fun row => row.map Sum.inl))

/-- `one_hot_encode` with the caller's array threaded through the loop as
explicit state, so that any in-place write to it would be visible in the
first component.  The body's writes all target arrays created inside the
call (`X.copy()`, `np.zeros`, `np.hstack` results); the input is only
read. -/
def one_hot_encode_st (X : List (List α)) (categorical_indices : List ℕ)
    (drop_first : Bool) : List (List α) × List (List (α ⊕ ℚ)) :=
  (List.insertionSort (fun a b => b ≤ a) categorical_indices).foldl
    (fun st index => (st.1, encodeOne st.1 st.2 index drop_first))
    (X, X.map (fun row => row.map Sum.inl))

/-- Read an output entry as the float NumPy would store there: indicator
entries are their value, original entries contribute `0` (they are never
part of an indicator block). -/
def toQ : α ⊕ ℚ → ℚ
  | .inl _ => 0
  | .inr q => q

/-- Sum of the entries of `row` in columns `[a, a + len)`, read as floats:
the row sum across an inserted indicator block. -/
def rowSliceSum (row : List (α ⊕ ℚ)) (a len : ℕ) : ℚ :=
  (((row.drop a).take len).map toQ).sum

end OneHot

/-! ### Dimension lemmas for the list linear algebra -/

theorem except_bind_ok {ε β γ : Type} (a : β) (f : β → Except ε γ) :
    (Except.ok a : Except ε β).bind f = f a := rfl

theorem except_bind_error {ε β γ : Type} (e : ε) (f : β → Except ε γ) :
    (Except.error e : Except ε β).bind f = .error e := rfl

theorem length_transposeM (M : Mat) : (transposeM M).length = ncols M := by
  simp [transposeM]

theorem mem_transposeM_length {M : Mat} {r : Vec} (h : r ∈ transposeM M) :
    r.length = M.length := by
  simp only [transposeM, List.mem_map] at h
  obtain ⟨j, _, rfl⟩ := h
  simp

theorem length_matMulP (A B : Mat) : (matMulP A B).length = A.length := by
  simp [matMulP]

theorem mem_matMulP_length {A B : Mat} {r : Vec} (h : r ∈ matMulP A B) :
    r.length = (transposeM B).length := by
  simp only [matMulP, List.mem_map] at h
  obtain ⟨a, _, rfl⟩ := h
  simp

theorem length_matVecP (A : Mat) (v : Vec) : (matVecP A v).length = A.length := by
  simp [matVecP]

theorem length_cofactorMat (M : Mat) : (cofactorMat M).length = M.length := by
  simp [cofactorMat]

theorem ncols_cofactorMat {M : Mat} (h : 0 < M.length) :
    ncols (cofactorMat M) = M.length := by
  obtain ⟨k, hk⟩ := Nat.exists_eq_succ_of_ne_zero (Nat.pos_iff_ne_zero.mp h)
  simp [cofactorMat, ncols, hk, List.range_succ_eq_map]

theorem length_pureInv {M : Mat} (h : 0 < M.length) :
    (pureInv M).length = M.length := by
  simp [pureInv, length_transposeM, ncols_cofactorMat h]

theorem mem_pureInv_length {M : Mat} {r : Vec} (h : r ∈ pureInv M) :
    r.length = M.length := by
  simp only [pureInv, List.mem_map] at h
  obtain ⟨a, ha, rfl⟩ := h
  simp [mem_transposeM_length ha, length_cofactorMat]

theorem ncols_transposeM {M : Mat} (h : 0 < ncols M) :
    ncols (transposeM M) = M.length := by
  obtain ⟨k, hk⟩ := Nat.exists_eq_succ_of_ne_zero (Nat.pos_iff_ne_zero.mp h)
  rw [transposeM, hk, List.range_succ_eq_map]
  simp [ncols]

theorem ncols_withBias {X : Mat} {x : List ℚ} {t : Mat} (h : X = x :: t) :
    ncols (withBias X) = x.length + 1 := by
  subst h; simp [withBias, ncols]

theorem ncols_withBias_rect {X : Mat} {p : ℕ} (hrect : ∀ r ∈ X, r.length = p)
    (hn : 0 < X.length) : ncols (withBias X) = p + 1 := by
  obtain ⟨x, Xr, hX⟩ := List.exists_cons_of_ne_nil (List.ne_nil_of_length_pos hn)
  rw [ncols_withBias hX, hrect x (hX ▸ List.mem_cons_self x Xr)]

/-! ### Claim theorems -/

/-- C1: for every rectangular 2-D matrix `X` (nonempty, `p` columns) and
aligned `y`, whenever the Gram matrix `XᵇᵀXᵇ` of the bias-augmented
matrix `Xᵇ` has nonzero determinant (is invertible),
`fit(X, y, method="least_squares")` succeeds and stores
`θ = (XᵇᵀXᵇ)⁻¹ Xᵇᵀ y` with `intercept = θ[0]` and
`coefficients = θ[1:]`. -/
theorem c1_least_squares (s : LinearRegressor) (X : Mat) (y : Vec) (p : ℕ)
    (lr : ℚ) (iters : ℕ) (rand : ℕ → ℚ)
    (hrect : ∀ r ∈ X, r.length = p)
    (hn : 0 < X.length)
    (hy : y.length = X.length)
    (hdet : listDet (matMulP (transposeM (withBias X)) (withBias X)) ≠ 0) :
    s.fit (.two X) y "least_squares" lr iters rand =
      (.ok (), { coefficients := some ((specTheta X y).drop 1),
                 intercept := some ((specTheta X y).getD 0 0) }) := by
  have hncols : ncols (withBias X) = p + 1 := ncols_withBias_rect hrect hn
  have hxblen : (withBias X).length = X.length := by simp [withBias]
  have hglen : (matMulP (transposeM (withBias X)) (withBias X)).length = p + 1 := by
    rw [length_matMulP, length_transposeM, hncols]
  have h1 : matMulE (transposeM (withBias X)) (withBias X) =
      .ok (matMulP (transposeM (withBias X)) (withBias X)) := by
    rw [matMulE, if_pos]
    intro r hr
    exact mem_transposeM_length hr
  have h2 : npLinalgInv (matMulP (transposeM (withBias X)) (withBias X)) =
      .ok (pureInv (matMulP (transposeM (withBias X)) (withBias X))) := by
    rw [npLinalgInv, if_pos, if_neg hdet]
    intro r hr
    rw [mem_matMulP_length hr, length_transposeM, hncols, hglen]
  have h3 : matMulE (pureInv (matMulP (transposeM (withBias X)) (withBias X)))
      (transposeM (withBias X)) =
      .ok (matMulP (pureInv (matMulP (transposeM (withBias X)) (withBias X)))
        (transposeM (withBias X))) := by
    rw [matMulE, if_pos]
    intro r hr
    rw [mem_pureInv_length hr, hglen, length_transposeM, hncols]
  have h4 : matVecE (matMulP (pureInv (matMulP (transposeM (withBias X))
      (withBias X))) (transposeM (withBias X))) y =
      .ok (specTheta X y) := by
    rw [matVecE, if_pos]
    · rfl
    · intro r hr
      rw [mem_matMulP_length hr, length_transposeM,
        ncols_transposeM (show 0 < ncols (withBias X) by omega), hxblen, hy]
  have htheta : thetaOf (withBias X) y = .ok (specTheta X y) := by
    rw [thetaOf, h1, except_bind_ok, h2, except_bind_ok, h3, except_bind_ok, h4]
  have hthlen : (specTheta X y).length = p + 1 := by
    rw [specTheta, length_matVecP, length_matMulP, length_pureInv, hglen]
    rw [hglen]; omega
  obtain ⟨t0, ts, hts⟩ := List.exists_cons_of_ne_nil
    (List.ne_nil_of_length_pos (by rw [hthlen]; omega) :
      specTheta X y ≠ [])
  rw [show s.fit (.two X) y "least_squares" lr iters rand =
      s.fit_multiple (withBias X) y from rfl]
  rw [LinearRegressor.fit_multiple.eq_def, htheta]
  dsimp only
  rw [hts]
  simp

/-- C1 witness: the spec's concrete scenario `X = [[1],[2],[3],[4]]`,
`y = [2,4,6,8]`: intercept `0`, coefficients `[2]`. -/
theorem c1_least_squares_witness :
    LinearRegressor.new.fit (.two [[1], [2], [3], [4]]) [2, 4, 6, 8]
        "least_squares" (1 / 100) 1000 (fun _ => 0) =
      (.ok (), ⟨some [2], some 0⟩) := by
  have hdet : listDet (matMulP (transposeM (withBias [[1], [2], [3], [4]]))
      (withBias [[1], [2], [3], [4]])) ≠ 0 := by
    norm_num [listDet, listDetAux, matMulP, matVecP, transposeM, ncols, withBias,
      dotList, List.range_succ, List.eraseIdx]
  have htheta : specTheta [[1], [2], [3], [4]] [2, 4, 6, 8] = [0, 2] := by
    norm_num [specTheta, pureInv, cofactorMat, minorAt, listDet, listDetAux,
      matMulP, matVecP, transposeM, ncols, withBias, dotList, List.range_succ,
      List.eraseIdx]
  have h := c1_least_squares LinearRegressor.new [[1], [2], [3], [4]] [2, 4, 6, 8]
    1 (1 / 100) 1000 (fun _ => 0) (by decide) (by decide) (by decide) hdet
  rw [h, htheta]
  rfl

/-- One embedded gradient-descent epoch on a well-shaped input equals the
spec's update step. -/
theorem gdStep_spec (X : Mat) (y : Vec) (p : ℕ) (lr : ℚ)
    (hrect : ∀ r ∈ X, r.length = p) (hn : 0 < X.length)
    (hy : y.length = X.length) (b : ℚ) (c : Vec) (hc : c.length = p) :
    gdStep (withBias X) y lr y.length ⟨some c, some b⟩ =
      (.ok (), ⟨some ((specGDStep X y lr (b, c)).2),
        some ((specGDStep X y lr (b, c)).1)⟩) := by
  have hncols : ncols (withBias X) = p + 1 := ncols_withBias_rect hrect hn
  have hXdrop : (withBias X).map (fun row => row.drop 1) = X := by
    simp [withBias, List.map_map, Function.comp_def]
  have hpred : LinearRegressor.predict ⟨some c, some b⟩
      (.two ((withBias X).map (fun row => row.drop 1))) =
      .ok (X.map (fun r => dotList r c + b)) := by
    rw [hXdrop]
    simp only [LinearRegressor.predict, matVecE, matVecP, to2d]
    rw [if_pos (show ∀ r ∈ X, r.length = c.length by
      intro r hr; rw [hrect r hr, hc])]
    dsimp only
    rw [List.map_map]
    rfl
  have herr : npSub1d (X.map (fun r => dotList r c + b)) y =
      .ok (List.zipWith (· - ·) (X.map (fun r => dotList r c + b)) y) := by
    rw [npSub1d, if_pos (by simp [hy])]
  have hm0 : ¬(y.length = 0) := by omega
  have hmv : matVecE (transposeM (withBias X))
      (List.zipWith (· - ·) (X.map (fun r => dotList r c + b)) y) =
      .ok (matVecP (transposeM (withBias X))
        (List.zipWith (· - ·) (X.map (fun r => dotList r c + b)) y)) := by
    rw [matVecE, if_pos]
    intro r hr
    rw [mem_transposeM_length hr]
    simp [withBias, hy]
  have hglen : ((matVecP (transposeM (withBias X))
      (List.zipWith (· - ·) (X.map (fun r => dotList r c + b)) y)).map
        (fun v => lr / (y.length : ℚ) * v)).length = p + 1 := by
    rw [List.length_map, length_matVecP, length_transposeM, hncols]
  obtain ⟨g0, gs, hgeq⟩ := List.exists_cons_of_ne_nil
    (List.ne_nil_of_length_pos (by rw [hglen]; omega))
  have hgslen : gs.length = p := by
    have h' := hglen
    rw [hgeq] at h'
    simpa using h'
  have hsub2 : npSub1d c gs = .ok (List.zipWith (· - ·) c gs) := by
    rw [npSub1d, if_pos (by simp [hc, hgslen])]
  simp only [gdStep, hpred, herr, if_neg hm0, hmv, hgeq, specGDStep,
    List.getElem?_cons_zero, List.getD_cons_zero, List.drop_succ_cons,
    List.drop_zero, hsub2]

/-- The spec's update step preserves the coefficient count. -/
theorem specGDStep_len (X : Mat) (y : Vec) (p : ℕ) (lr : ℚ)
    (hrect : ∀ r ∈ X, r.length = p) (hn : 0 < X.length)
    (b : ℚ) (c : Vec) (hc : c.length = p) :
    ((specGDStep X y lr (b, c)).2).length = p := by
  have hncols : ncols (withBias X) = p + 1 := ncols_withBias_rect hrect hn
  simp only [specGDStep]
  rw [List.length_zipWith, List.length_drop, List.length_map, length_matVecP,
    length_transposeM, hncols, hc]
  omega

/-- The embedded epoch loop on a well-shaped input iterates the spec's
update step exactly `k` times. -/
theorem gdLoop_spec (X : Mat) (y : Vec) (p : ℕ) (lr : ℚ)
    (hrect : ∀ r ∈ X, r.length = p) (hn : 0 < X.length)
    (hy : y.length = X.length) :
    ∀ (k : ℕ) (b : ℚ) (c : Vec), c.length = p →
      gdLoop (withBias X) y lr y.length k ⟨some c, some b⟩ =
        (.ok (), ⟨some (((specGDStep X y lr)^[k] (b, c)).2),
          some (((specGDStep X y lr)^[k] (b, c)).1)⟩) := by
  intro k
  induction k with
  | zero =>
      intro b c hc
      simp [gdLoop]
  | succ n ih =>
      intro b c hc
      rw [gdLoop, gdStep_spec X y p lr hrect hn hy b c hc]
      dsimp only
      rw [ih ((specGDStep X y lr (b, c)).1) ((specGDStep X y lr (b, c)).2)
        (specGDStep_len X y p lr hrect hn b c hc)]
      rw [Function.iterate_succ_apply]

/-- C2: on a rectangular `n × p` matrix `X` with aligned nonempty `y`,
`fit(X, y, method="gradient_descent", lr, iterations)` succeeds and
performs exactly `iterations` epochs of the spec's update step
(predictions over the non-bias columns, `error = predictions − y`,
`gradient = (lr/n) · Xᵇᵀ · error`, `intercept -= gradient[0]`,
`coefficients -= gradient[1:]`) starting from the random initialization,
with no early stopping; the final epoch's parameters are left on the
model. -/
theorem c2_gradient_descent (s : LinearRegressor) (X : Mat) (y : Vec) (p : ℕ)
    (lr : ℚ) (iters : ℕ) (rand : ℕ → ℚ)
    (hrect : ∀ r ∈ X, r.length = p)
    (hn : 0 < X.length)
    (hy : y.length = X.length) :
    s.fit (.two X) y "gradient_descent" lr iters rand =
      (.ok (),
        LinearRegressor.mk
          (some (((specGDStep X y lr)^[iters]
            (rand p * (1 / 100),
              (List.range p).map (fun i => rand i * (1 / 100)))).2))
          (some (((specGDStep X y lr)^[iters]
            (rand p * (1 / 100),
              (List.range p).map (fun i => rand i * (1 / 100)))).1))) := by
  have hncols : ncols (withBias X) = p + 1 := ncols_withBias_rect hrect hn
  have hstart : s.fit (.two X) y "gradient_descent" lr iters rand =
      gdLoop (withBias X) y lr y.length iters
        ⟨some ((List.range (ncols (withBias X) - 1)).map
            (fun i => rand i * (1 / 100))),
          some (rand (ncols (withBias X) - 1) * (1 / 100))⟩ := rfl
  rw [hstart, hncols, Nat.add_sub_cancel]
  exact gdLoop_spec X y p lr hrect hn hy iters (rand p * (1 / 100))
    ((List.range p).map (fun i => rand i * (1 / 100))) (by simp)

/-- C2 witness: two epochs with `lr = 1` on `X = [[1],[2]]`, `y = [3,5]`
under the zero random oracle, checked against the explicitly iterated
spec step. -/
theorem c2_gradient_descent_witness :
    LinearRegressor.new.fit (.two [[1], [2]]) [3, 5] "gradient_descent" 1 2
        (fun _ => 0) =
      (.ok (), ⟨some [-37 / 4], some (-23 / 4)⟩) := by
  have h := c2_gradient_descent LinearRegressor.new [[1], [2]] [3, 5] 1 1 2
    (fun _ => 0) (by decide) (by decide) (by decide)
  rw [h]
  norm_num [Function.iterate_succ, Function.iterate_zero, Function.comp,
    specGDStep, matVecP, transposeM, ncols, withBias, dotList, List.range_succ]

/-- C4: for every `X`, `y` and every method string other than the two
literals `"least_squares"` and `"gradient_descent"`, `fit` returns a
`ValueError` whose message names the offending value — independently of
`X`, `y` and the numeric arguments (so before any computation) — and the
model state is exactly the state before the call. -/
theorem c4_invalid_method (s : LinearRegressor) (X : NDArray) (y : Vec)
    (method : String) (lr : ℚ) (iters : ℕ) (rand : ℕ → ℚ)
    (h1 : method ≠ "least_squares") (h2 : method ≠ "gradient_descent") :
    s.fit X y method lr iters rand =
      (.error (.valueError
        ("Method " ++ method ++ " not available for training linear regression.")),
        s) ∧
    ∃ a b,
      "Method " ++ method ++ " not available for training linear regression." =
        a ++ method ++ b := by
  constructor
  · simp only [LinearRegressor.fit]
    rw [if_neg]
    rintro (h | h) <;> [exact h1 h; exact h2 h]
  · exact ⟨"Method ", " not available for training linear regression.", rfl⟩

/-- C4 witness: the spec's example `method = "ols"` on a concrete fitted
model and data. -/
theorem c4_invalid_method_witness :
    (⟨some [2], some 3⟩ : LinearRegressor).fit (.two [[1], [2]]) [1, 2] "ols"
        (1 / 100) 5 (fun _ => 0) =
      (.error (.valueError
        ("Method " ++ "ols" ++ " not available for training linear regression.")),
        (⟨some [2], some 3⟩ : LinearRegressor)) ∧
    ∃ a b,
      "Method " ++ "ols" ++ " not available for training linear regression." =
        a ++ "ols" ++ b :=
  c4_invalid_method ⟨some [2], some 3⟩ (.two [[1], [2]]) [1, 2] "ols" (1 / 100) 5
    (fun _ => 0) (by decide) (by decide)

/-- C5: `predict` raises `ValueError "Model is not yet fitted"` whenever
either parameter is unset (in particular on a freshly constructed model);
when both are set it returns `X · coefficients + intercept`, a 1-D input
being reshaped to an `n × 1` matrix first. -/
theorem c5_predict :
    (∀ (s : LinearRegressor) (X : NDArray),
      s.coefficients = none ∨ s.intercept = none →
        s.predict X = .error (.valueError "Model is not yet fitted")) ∧
    (∀ X : NDArray,
      LinearRegressor.new.predict X =
        .error (.valueError "Model is not yet fitted")) ∧
    (∀ (c : Vec) (b : ℚ) (M : Mat), (∀ r ∈ M, r.length = c.length) →
      (LinearRegressor.mk (some c) (some b)).predict (.two M) =
        .ok (M.map (fun r => dotList r c + b))) ∧
    (∀ (c : Vec) (b : ℚ) (v : Vec), c.length = 1 →
      (LinearRegressor.mk (some c) (some b)).predict (.one v) =
        .ok (v.map (fun x => dotList [x] c + b))) := by
  refine ⟨?_, ?_, ?_, ?_⟩
  · rintro ⟨cf, ic⟩ X (h | h) <;> simp only at h <;> subst h
    · rfl
    · cases cf <;> rfl
  · intro X; rfl
  · intro c b M h
    simp only [LinearRegressor.predict, to2d, matVecE, if_pos h, matVecP]
    rw [List.map_map]
    rfl
  · intro c b v h
    simp only [LinearRegressor.predict, matVecE, matVecP, to2d]
    rw [if_pos (show ∀ r ∈ List.map (fun x => [x]) v, r.length = List.length c by
      intro r hr
      simp only [List.mem_map] at hr
      obtain ⟨x, _, rfl⟩ := hr
      simp [h])]
    simp [Function.comp]

/-- C5 witness: a model with one unset field, a never-fitted model, and a
fitted model applied to 2-D and 1-D inputs. -/
theorem c5_predict_witness :
    (⟨none, some 3⟩ : LinearRegressor).predict (.one [1]) =
        .error (.valueError "Model is not yet fitted") ∧
    LinearRegressor.new.predict (.one [1]) =
        .error (.valueError "Model is not yet fitted") ∧
    (⟨some [2], some 1⟩ : LinearRegressor).predict (.two [[3]]) = .ok [7] ∧
    (⟨some [2], some 1⟩ : LinearRegressor).predict (.one [3]) = .ok [7] := by
  refine ⟨c5_predict.1 ⟨none, some 3⟩ (.one [1]) (Or.inl rfl),
    c5_predict.2.1 (.one [1]), ?_, ?_⟩
  · have h := c5_predict.2.2.1 [2] 1 [[3]] (by decide)
    rw [h]; norm_num [dotList]
  · have h := c5_predict.2.2.2 [2] 1 [3] (by decide)
    rw [h]; norm_num [dotList]

theorem zipWith_sum_range (f : ℝ → ℝ → ℝ) :
    ∀ (a b : List ℝ), a.length = b.length →
      (List.zipWith f a b).sum =
        ∑ i ∈ Finset.range a.length, f (a.getD i 0) (b.getD i 0)
  | [], [], _ => by simp
  | [], _ :: _, h => by simp at h
  | _ :: _, [], h => by simp at h
  | x :: xs, y :: ys, h => by
      have h' : xs.length = ys.length := by simpa using h
      simp only [List.zipWith_cons_cons, List.sum_cons, List.length_cons]
      rw [Finset.sum_range_succ']
      simp only [List.getD_cons_succ, List.getD_cons_zero]
      rw [zipWith_sum_range f xs ys h']
      ring

theorem map_sum_range (g : ℝ → ℝ) :
    ∀ a : List ℝ,
      (a.map g).sum = ∑ i ∈ Finset.range a.length, g (a.getD i 0)
  | [] => by simp
  | x :: xs => by
      simp only [List.map_cons, List.sum_cons, List.length_cons]
      rw [Finset.sum_range_succ']
      simp only [List.getD_cons_succ, List.getD_cons_zero]
      rw [map_sum_range g xs]
      ring

theorem zipWith_self (f : ℝ → ℝ → ℝ) :
    ∀ a : List ℝ, List.zipWith f a a = a.map (fun x => f x x)
  | [] => rfl
  | x :: xs => by simp [zipWith_self f xs]

/-- C6: on equal-length nonempty inputs, `evaluate_regression` returns the
mapping with exactly the keys `"R2"`, `"RMSE"`, `"MAE"`, whose values are
the spec's three formulas (`R²` non-finite exactly when the total sum of
squares is zero).  The embedding is a pure function of its arguments, so
neither input is mutated. -/
theorem c6_evaluate_regression (yt yp : List ℝ)
    (hlen : yt.length = yp.length) (hn : 0 < yt.length) :
    evaluate_regression yt yp =
      [("R2", specR2 yt yp), ("RMSE", some (specRMSE yt yp)),
        ("MAE", some (specMAE yt yp))] ∧
    (evaluate_regression yt yp).map Prod.fst = ["R2", "RMSE", "MAE"] := by
  have hres := zipWith_sum_range (fun a b => (a - b) ^ 2) yt yp hlen
  have habs := zipWith_sum_range (fun a b => |a - b|) yt yp hlen
  have htot := map_sum_range (fun a => (a - yt.sum / (yt.length : ℝ)) ^ 2) yt
  have hnne : (yt.length : ℝ) ≠ 0 := Nat.cast_ne_zero.mpr (by omega)
  constructor
  · simp only [evaluate_regression, hres, habs, htot, npDiv, specR2, specRMSE,
      specMAE, specMean, if_neg hnne]
    split_ifs <;> simp
  · simp [evaluate_regression]

/-- C6 witness: a concrete evaluation (`y_true = [1, 3]`,
`y_pred = [2, 3]`). -/
theorem c6_evaluate_regression_witness :
    evaluate_regression [(1 : ℝ), 3] [2, 3] =
      [("R2", specR2 [(1 : ℝ), 3] [2, 3]),
        ("RMSE", some (specRMSE [(1 : ℝ), 3] [2, 3])),
        ("MAE", some (specMAE [(1 : ℝ), 3] [2, 3]))] ∧
    (evaluate_regression [(1 : ℝ), 3] [2, 3]).map Prod.fst =
      ["R2", "RMSE", "MAE"] :=
  c6_evaluate_regression [(1 : ℝ), 3] [2, 3] (by norm_num) (by norm_num)

/-- C7 counterexample: `evaluate_regression([5], [5])` — a nonempty
(constant) vector with perfect predictions — returns a non-finite `R2`
(NumPy's `0.0/0.0 = nan`, modelled `none`), not `1.0`: the claim fails
for constant `y`. -/
theorem c7_counterexample :
    evaluate_regression [(5 : ℝ)] [5] =
      [("R2", none), ("RMSE", some 0), ("MAE", some 0)] ∧
    (none : Option ℝ) ≠ some 1 := by
  refine ⟨?_, by simp⟩
  norm_num [evaluate_regression, npDiv, Real.sqrt_zero]

/-- C7 amended: for every nonempty `y` that is not constant (nonzero
total sum of squares about the mean), `evaluate_regression(y, y)` returns
exactly `R2 = 1`, `RMSE = 0`, `MAE = 0`; for constant `y` the division
`0/0` makes `R2` non-finite instead. -/
theorem c7_perfect_predictions (y : List ℝ) (hn : 0 < y.length)
    (hvar : (y.map (fun a => (a - y.sum / (y.length : ℝ)) ^ 2)).sum ≠ 0) :
    evaluate_regression y y =
      [("R2", some 1), ("RMSE", some 0), ("MAE", some 0)] := by
  have hz : ∀ f : ℝ → ℝ → ℝ, (∀ x, f x x = 0) →
      (List.zipWith f y y).sum = 0 := by
    intro f hf
    rw [zipWith_self f y]
    apply List.sum_eq_zero
    intro x hx
    simp only [List.mem_map] at hx
    obtain ⟨a, _, rfl⟩ := hx
    exact hf a
  have hres : (List.zipWith (fun a b => (a - b) ^ 2) y y).sum = 0 :=
    hz _ (by intro x; ring)
  have habs : (List.zipWith (fun a b => |a - b|) y y).sum = 0 :=
    hz _ (by intro x; simp)
  have hnne : (y.length : ℝ) ≠ 0 := Nat.cast_ne_zero.mpr (by omega)
  simp only [evaluate_regression, hres, habs, npDiv, if_neg hvar, if_neg hnne]
  norm_num [Real.sqrt_zero]

/-- C7 amended witness: `y = [1, 2]` is nonempty and non-constant. -/
theorem c7_perfect_predictions_witness :
    evaluate_regression [(1 : ℝ), 2] [1, 2] =
      [("R2", some 1), ("RMSE", some 0), ("MAE", some 0)] := by
  refine c7_perfect_predictions [1, 2] (by norm_num) ?_
  norm_num

/-- C3 counterexample: a previously fitted model (`coefficients = [2]`,
`intercept = 3`) on which `fit(method="gradient_descent")` raises (the
`predictions - y` broadcast fails because `X` has 2 rows and `y` has 3
entries), yet afterwards the stored parameters are the fresh random
initialization (`[0]` and `0` under the zero oracle), not the previous
values: the claim's "left exactly as they were" is false. -/
theorem c3_counterexample :
    ((⟨some [2], some 3⟩ : LinearRegressor).fit (.two [[1], [1]]) [1, 2, 3]
        "gradient_descent" (1 / 100) 1000 (fun _ => 0)).1 =
      .error (.valueError "operands could not be broadcast together") ∧
    ((⟨some [2], some 3⟩ : LinearRegressor).fit (.two [[1], [1]]) [1, 2, 3]
        "gradient_descent" (1 / 100) 1000 (fun _ => 0)).2 ≠
      (⟨some [2], some 3⟩ : LinearRegressor) := by
  refine ⟨rfl, fun heq => ?_⟩
  have h2 : (((⟨some [2], some 3⟩ : LinearRegressor).fit (.two [[1], [1]])
      [1, 2, 3] "gradient_descent" (1 / 100) 1000 (fun _ => 0)).2).intercept =
      some 3 := by rw [heq]
  have h3 : (((⟨some [2], some 3⟩ : LinearRegressor).fit (.two [[1], [1]])
      [1, 2, 3] "gradient_descent" (1 / 100) 1000 (fun _ => 0)).2).intercept =
      some ((0 : ℚ) * (1 / 100)) := rfl
  rw [h3] at h2
  have h4 : (0 : ℚ) * (1 / 100) = 3 := Option.some.inj h2
  norm_num at h4

/-- Any raise inside `fit_multiple` happens while computing `theta`,
before either assignment to `self`: the state after a failing call is the
state before it. -/
theorem fit_multiple_error_state (s : LinearRegressor) (X : Mat) (y : Vec)
    (e : PyError) (t : LinearRegressor)
    (h : s.fit_multiple X y = (.error e, t)) : t = s := by
  unfold LinearRegressor.fit_multiple at h
  cases htheta : thetaOf X y with
  | error e1 =>
      rw [htheta] at h
      exact (Prod.ext_iff.mp h).2.symm
  | ok theta =>
      rw [htheta] at h
      dsimp only at h
      cases hidx : theta[0]? with
      | none =>
          rw [hidx] at h
          exact (Prod.ext_iff.mp h).2.symm
      | some t0 =>
          rw [hidx] at h
          exact absurd (Prod.ext_iff.mp h).1 (by simp)

/-- C3 amended: the atomicity guarantee holds for the least-squares path
and for the invalid-method rejection — any error there leaves the
previously stored parameters exactly as they were — but not for the
gradient-descent path, which overwrites both parameters with fresh random
initial values before any error can be raised. -/
theorem c3_fit_error_preserves_state (s : LinearRegressor) (X : NDArray)
    (y : Vec) (method : String) (lr : ℚ) (iters : ℕ) (rand : ℕ → ℚ)
    (e : PyError) (t : LinearRegressor)
    (hm : method ≠ "gradient_descent")
    (h : s.fit X y method lr iters rand = (.error e, t)) :
    t = s := by
  by_cases hls : method = "least_squares"
  · subst hls
    exact fit_multiple_error_state s (withBias (to2d X)) y e t h
  · have hcond : ¬(method = "least_squares" ∨ method = "gradient_descent") := by
      rintro (h' | h') <;> [exact hls h'; exact hm h']
    simp only [LinearRegressor.fit, if_neg hcond, Prod.mk.injEq] at h
    exact h.2.symm

/-- `fit_multiple` on a matrix with a singular Gram matrix: `np.linalg.inv`
raises `LinAlgError` while computing `theta`. -/
theorem thetaOf_singular {X : Mat} (y : Vec)
    (hT : ∀ r ∈ transposeM X, r.length = X.length)
    (hsq : ∀ r ∈ matMulP (transposeM X) X,
      r.length = (matMulP (transposeM X) X).length)
    (hdet : listDet (matMulP (transposeM X) X) = 0) :
    thetaOf X y = .error (.linAlgError "Singular matrix") := by
  have h1 : matMulE (transposeM X) X = .ok (matMulP (transposeM X) X) := by
    rw [matMulE, if_pos hT]
  have h2 : npLinalgInv (matMulP (transposeM X) X) =
      .error (.linAlgError "Singular matrix") := by
    rw [npLinalgInv, if_pos hsq, if_pos hdet]
  rw [thetaOf, h1, except_bind_ok, h2, except_bind_error]

/-- C3 amended witness: a singular least-squares fit (two identical rows)
raises `LinAlgError` and leaves the previously fitted `([5], 7)` intact. -/
theorem c3_fit_error_preserves_state_witness :
    ((⟨some [5], some 7⟩ : LinearRegressor).fit (.two [[1], [1]]) [1, 2]
        "least_squares" (1 / 100) 10 (fun _ => 0)).2 =
      (⟨some [5], some 7⟩ : LinearRegressor) := by
  have htheta : thetaOf (withBias [[1], [1]]) [1, 2] =
      .error (.linAlgError "Singular matrix") := by
    refine thetaOf_singular [1, 2] (by decide) (by decide) ?_
    norm_num [listDet, listDetAux, matMulP, transposeM, ncols, withBias, dotList,
      List.range_succ]
  have hfit : (⟨some [5], some 7⟩ : LinearRegressor).fit (.two [[1], [1]]) [1, 2]
      "least_squares" (1 / 100) 10 (fun _ => 0) =
      (.error (.linAlgError "Singular matrix"), ⟨some [5], some 7⟩) := by
    show (⟨some [5], some 7⟩ : LinearRegressor).fit_multiple (withBias [[1], [1]])
      [1, 2] = _
    rw [LinearRegressor.fit_multiple.eq_def, htheta]
  have hfit2 : (⟨some [5], some 7⟩ : LinearRegressor).fit (.two [[1], [1]]) [1, 2]
      "least_squares" (1 / 100) 10 (fun _ => 0) =
      (.error (.linAlgError "Singular matrix"),
        ((⟨some [5], some 7⟩ : LinearRegressor).fit (.two [[1], [1]]) [1, 2]
          "least_squares" (1 / 100) 10 (fun _ => 0)).2) := by
    rw [hfit]
  exact c3_fit_error_preserves_state ⟨some [5], some 7⟩ (.two [[1], [1]]) [1, 2]
    "least_squares" (1 / 100) 10 (fun _ => 0) (.linAlgError "Singular matrix") _
    (by decide) hfit2

section OneHotProofs

variable {α : Type*} [LinearOrder α] [DecidableEq α] [Inhabited α]

theorem mem_uniqueSorted {l : List α} {v : α} : v ∈ uniqueSorted l ↔ v ∈ l := by
  rw [uniqueSorted, List.mem_dedup]
  exact (List.perm_insertionSort _ l).mem_iff

theorem nodup_uniqueSorted (l : List α) : (uniqueSorted l).Nodup :=
  List.nodup_dedup _

theorem indicatorRow_cons (a : α) (t : List α) (v : α) :
    indicatorRow (a :: t) v =
      (if v = a then (1 : ℚ) else 0) :: indicatorRow t v := rfl

theorem indicatorRow_sum_of_not_mem (v : α) :
    ∀ u : List α, v ∉ u → (indicatorRow u v).sum = 0
  | [], _ => rfl
  | a :: t, hv => by
      have h1 : ¬(v = a) := fun h => hv (h ▸ List.mem_cons_self a t)
      have h2 : v ∉ t := fun h => hv (List.mem_cons_of_mem a h)
      rw [indicatorRow_cons, List.sum_cons, if_neg h1,
        indicatorRow_sum_of_not_mem v t h2, add_zero]

theorem indicatorRow_sum_of_mem (v : α) :
    ∀ u : List α, u.Nodup → v ∈ u → (indicatorRow u v).sum = 1
  | [], _, hv => absurd hv (List.not_mem_nil v)
  | a :: t, hnd, hv => by
      rcases List.mem_cons.mp hv with rfl | hvt
      · rw [indicatorRow_cons, List.sum_cons, if_pos rfl,
          indicatorRow_sum_of_not_mem v t (List.nodup_cons.mp hnd).1, add_zero]
      · have hna : ¬(v = a) := fun h => (List.nodup_cons.mp hnd).1 (h ▸ hvt)
        rw [indicatorRow_cons, List.sum_cons, if_neg hna,
          indicatorRow_sum_of_mem v t (List.nodup_cons.mp hnd).2 hvt, zero_add]

theorem rowSliceSum_append (A B : List (α ⊕ ℚ)) (ind : List ℚ) (index : ℕ)
    (hA : A.length = index) :
    rowSliceSum (A ++ ind.map Sum.inr ++ B) index ind.length = ind.sum := by
  subst hA
  rw [rowSliceSum, List.append_assoc, List.drop_left]
  rw [show ind.length = (ind.map Sum.inr).length from
    (List.length_map ind Sum.inr).symm, List.take_left]
  simp [List.map_map, Function.comp_def, toQ]

/-- Row `i` of `one_hot_encode` on a single categorical index: the row of
the copied input with the indicator block spliced in at `index`. -/
theorem one_hot_row (df : Bool) (X : List (List α)) (index i : ℕ)
    (hi : i < X.length) :
    (one_hot_encode X [index] df).getD i [] =
      ((X.getD i []).map Sum.inl).take index ++
        ((if df then
            (indicatorRow (uniqueSorted (colOf X index))
              ((X.getD i []).getD index default)).drop 1
          else
            indicatorRow (uniqueSorted (colOf X index))
              ((X.getD i []).getD index default)).map Sum.inr) ++
        ((X.getD i []).map Sum.inl).drop (index + 1) := by
  have hone : one_hot_encode X [index] df =
      encodeOne X (X.map (fun row => row.map Sum.inl)) index df := rfl
  rw [hone]
  simp only [encodeOne]
  have hz : i < (List.zipWith
      (fun trow v =>
        trow.take index ++
          ((if df then (indicatorRow (uniqueSorted (colOf X index)) v).drop 1
            else indicatorRow (uniqueSorted (colOf X index)) v).map Sum.inr) ++
          trow.drop (index + 1))
      (X.map (fun row => row.map Sum.inl)) (colOf X index)).length := by
    rw [List.length_zipWith]
    simp [colOf, hi]
  rw [List.getD_eq_getElem _ _ hz, List.getElem_zipWith]
  rw [List.getD_eq_getElem _ _ hi]
  congr 1 <;> [skip; congr 1] <;> simp [colOf]

end OneHotProofs

/-- C8: for a rectangular `X` (`m` columns), a valid column index and any
row `i`: with `drop_first = false` the sum across the `k` inserted
indicator columns of that row is exactly `1`; with `drop_first = true` it
is `1` or `0`, and it is `0` exactly when the row's original value is the
dropped reference category — the first element of the ascending sorted
unique values. -/
theorem c8_one_hot_row_sums {α : Type*} [LinearOrder α] [DecidableEq α]
    [Inhabited α] (X : List (List α)) (index m i : ℕ)
    (hrect : ∀ r ∈ X, r.length = m) (hidx : index < m) (hi : i < X.length) :
    rowSliceSum ((one_hot_encode X [index] false).getD i []) index
        (uniqueSorted (colOf X index)).length = 1 ∧
    (rowSliceSum ((one_hot_encode X [index] true).getD i []) index
        ((uniqueSorted (colOf X index)).length - 1) = 1 ∨
      rowSliceSum ((one_hot_encode X [index] true).getD i []) index
        ((uniqueSorted (colOf X index)).length - 1) = 0) ∧
    (rowSliceSum ((one_hot_encode X [index] true).getD i []) index
        ((uniqueSorted (colOf X index)).length - 1) = 0 ↔
      (X.getD i []).getD index default =
        (uniqueSorted (colOf X index)).headD default) := by
  have hXi : X.getD i [] ∈ X := by
    rw [List.getD_eq_getElem _ _ hi]
    exact List.getElem_mem hi
  have hXilen : (X.getD i []).length = m := hrect _ hXi
  have htake : (((X.getD i []).map (Sum.inl : α → α ⊕ ℚ)).take index).length =
      index := by
    simp only [List.length_take, List.length_map, hXilen]
    omega
  have hvcol : (X.getD i []).getD index default ∈ colOf X index := by
    have hcl : i < (colOf X index).length := by simp [colOf, hi]
    have heq : (colOf X index).get ⟨i, hcl⟩ =
        (X.getD i []).getD index default := by
      simp only [colOf, List.get_eq_getElem, List.getElem_map]
      rw [List.getD_eq_getElem _ _ hi]
    rw [← heq]
    exact List.get_mem _ _ hcl
  have hvu : (X.getD i []).getD index default ∈
      uniqueSorted (colOf X index) := mem_uniqueSorted.mpr hvcol
  have hnd := nodup_uniqueSorted (colOf X index)
  refine ⟨?_, ?_, ?_⟩
  · rw [one_hot_row false X index i hi, if_neg Bool.false_ne_true,
      show (uniqueSorted (colOf X index)).length =
        (indicatorRow (uniqueSorted (colOf X index))
          ((X.getD i []).getD index default)).length from
        (List.length_map _ _).symm,
      rowSliceSum_append _ _ _ _ htake]
    exact indicatorRow_sum_of_mem _ _ hnd hvu
  all_goals {
    obtain ⟨u0, ut, hu⟩ := List.exists_cons_of_ne_nil (List.ne_nil_of_mem hvu)
    have hndc := List.nodup_cons.mp (hu ▸ hnd)
    have hs : rowSliceSum ((one_hot_encode X [index] true).getD i []) index
        ((uniqueSorted (colOf X index)).length - 1) =
        (indicatorRow ut ((X.getD i []).getD index default)).sum := by
      rw [one_hot_row true X index i hi, if_pos rfl,
        show (indicatorRow (uniqueSorted (colOf X index))
            ((X.getD i []).getD index default)).drop 1 =
          indicatorRow ut ((X.getD i []).getD index default) by
          rw [hu, indicatorRow_cons, List.drop_succ_cons, List.drop_zero],
        show (uniqueSorted (colOf X index)).length - 1 =
          (indicatorRow ut ((X.getD i []).getD index default)).length by
          rw [hu]
          simp [indicatorRow],
        rowSliceSum_append _ _ _ _ htake]
    rw [hs]
    try rw [hu, List.headD_cons]
    by_cases hv0 : (X.getD i []).getD index default = u0
    · have hnm : (X.getD i []).getD index default ∉ ut := by
        rw [hv0]; exact hndc.1
      rw [indicatorRow_sum_of_not_mem _ _ hnm]
      first
      | exact Or.inr rfl
      | exact ⟨fun _ => hv0, fun _ => rfl⟩
    · have hmem : (X.getD i []).getD index default ∈ ut := by
        rcases List.mem_cons.mp (hu ▸ hvu) with h | h
        · exact absurd h hv0
        · exact h
      rw [indicatorRow_sum_of_mem _ _ hndc.2 hmem]
      first
      | exact Or.inl rfl
      | exact ⟨fun h => absurd h one_ne_zero, fun h => absurd h hv0⟩
  }

/-- C8 witness: `X = [[3], [4]]` over `ℚ`, index `0`, row `0`: two unique
values, indicator row sums `1` (no drop) and, with `drop_first`, `0` for
the reference row. -/
theorem c8_one_hot_row_sums_witness :
    rowSliceSum ((one_hot_encode [[(3 : ℚ)], [4]] [0] false).getD 0 []) 0
        (uniqueSorted (colOf [[(3 : ℚ)], [4]] 0)).length = 1 ∧
    (rowSliceSum ((one_hot_encode [[(3 : ℚ)], [4]] [0] true).getD 0 []) 0
        ((uniqueSorted (colOf [[(3 : ℚ)], [4]] 0)).length - 1) = 1 ∨
      rowSliceSum ((one_hot_encode [[(3 : ℚ)], [4]] [0] true).getD 0 []) 0
        ((uniqueSorted (colOf [[(3 : ℚ)], [4]] 0)).length - 1) = 0) ∧
    (rowSliceSum ((one_hot_encode [[(3 : ℚ)], [4]] [0] true).getD 0 []) 0
        ((uniqueSorted (colOf [[(3 : ℚ)], [4]] 0)).length - 1) = 0 ↔
      ([[(3 : ℚ)], [4]].getD 0 []).getD 0 default =
        (uniqueSorted (colOf [[(3 : ℚ)], [4]] 0)).headD default) :=
  c8_one_hot_row_sums [[(3 : ℚ)], [4]] 0 1 0 (by decide) (by decide) (by decide)

/-- C9: the spec's concrete scenario — `X = [["red"],["blue"],["red"]]`,
`categorical_indices = [0]`, `drop_first = false` — yields exactly two
indicator columns ordered `blue`, `red`: rows `[[0,1],[1,0],[0,1]]`. -/
theorem c9_concrete :
    one_hot_encode [["red"], ["blue"], ["red"]] [0] false =
      [[Sum.inr 0, Sum.inr 1], [Sum.inr 1, Sum.inr 0],
        [Sum.inr 0, Sum.inr 1]] ∧
    ∀ r ∈ one_hot_encode [["red"], ["blue"], ["red"]] [0] false,
      r.length = 2 := by
  have hbr : ("blue" : String) ≤ "red" := by
    rw [String.le_iff_toList_le]; decide
  have hrb : ¬(("red" : String) ≤ "blue") := by
    rw [String.le_iff_toList_le]; decide
  have hsort : List.insertionSort (· ≤ ·) ["red", "blue", "red"] =
      ["blue", "red", "red"] := by
    simp only [List.insertionSort, List.orderedInsert, if_pos hbr, if_neg hrb,
      if_pos (le_refl ("red" : String))]
  have huniq : uniqueSorted ["red", "blue", "red"] = ["blue", "red"] := by
    rw [uniqueSorted, hsort]; decide
  have h : one_hot_encode [["red"], ["blue"], ["red"]] [0] false =
      [[Sum.inr 0, Sum.inr 1], [Sum.inr 1, Sum.inr 0],
        [Sum.inr 0, Sum.inr 1]] := by
    have hstep : one_hot_encode [["red"], ["blue"], ["red"]] [0] false =
        encodeOne [["red"], ["blue"], ["red"]]
          ([["red"], ["blue"], ["red"]].map (fun row => row.map Sum.inl)) 0
          false := rfl
    rw [hstep]
    simp only [encodeOne]
    rw [show colOf [["red"], ["blue"], ["red"]] 0 = ["red", "blue", "red"]
      from rfl]
    rw [huniq]
    decide
  refine ⟨h, ?_⟩
  rw [h]
  intro r hr
  simp only [List.mem_cons, List.not_mem_nil, or_false] at hr
  rcases hr with rfl | rfl | rfl <;> rfl

/-- C10: `one_hot_encode` never writes to the caller's matrix: with the
input array threaded through the loop as explicit state alongside
`X_transformed`, the input component after the call is exactly the input
before it, and the result component is the function's output. -/
theorem c10_no_mutation {α : Type*} [LinearOrder α] [DecidableEq α]
    [Inhabited α] (X : List (List α)) (idxs : List ℕ) (df : Bool) :
    (one_hot_encode_st X idxs df).1 = X ∧
    (one_hot_encode_st X idxs df).2 = one_hot_encode X idxs df := by
  have key : ∀ (l : List ℕ) (X0 : List (List α))
      (Xt : List (List (α ⊕ ℚ))),
      l.foldl (fun st index => (st.1, encodeOne st.1 st.2 index df)) (X0, Xt) =
        (X0, l.foldl (fun acc index => encodeOne X0 acc index df) Xt) := by
    intro l
    induction l with
    | nil => intro X0 Xt; rfl
    | cons a t ih =>
        intro X0 Xt
        rw [List.foldl_cons, List.foldl_cons, ih]
  rw [one_hot_encode_st, one_hot_encode, key]
  exact ⟨rfl, rfl⟩

end LR
